import Mathlib

/-!
# Verification of the cellgrid library

Shallow embedding of the `cellgrid` Rust library (the canonical
`vecgrid.rs` + `patterns/` generation, which uses the exclusive-bounds
`Rect` convention) together with proofs of the specification's claims.

Machine integers (`i32`) are modelled as unbounded `Int`; the library's
arithmetic stays far from the `i32` boundaries for any realistically
sized grid, and no operation relies on wrapping.  The two places where
the source rounds through `f32` (`index_to_coord`'s division and the
line rasterizer's half-unit error term) are modelled exactly: the
division as mathematical floor division (`Int.fdiv`, which is what
`(a as f32 / b as f32).floor()` computes whenever the operands are
exactly representable) and the half-unit error term by keeping its
double as an integer.
-/

/-- `Coord` from `src/coord.rs`: a 2D integer vector. -/
structure Coord where
  x : Int
  y : Int
deriving DecidableEq, Repr

/-- `Coord::new`. -/
def Coord.new (x y : Int) : Coord := ⟨x, y⟩

/-- Vector addition (`impl Add for Coord`). -/
instance : Add Coord := ⟨fun a b => ⟨a.x + b.x, a.y + b.y⟩⟩

/-- Vector subtraction (`impl Sub for Coord`). -/
instance : Sub Coord := ⟨fun a b => ⟨a.x - b.x, a.y - b.y⟩⟩

/-- `Coord::flip`: reflect over the positive diagonal axis. -/
def Coord.flip (c : Coord) : Coord := ⟨c.y, c.x⟩

/-- `Coord::negate`: reflect over the negative diagonal axis. -/
def Coord.negate (c : Coord) : Coord := ⟨-c.x, -c.y⟩

/-- `Coord::negate_x`: reflect over the y-axis. -/
def Coord.negateX (c : Coord) : Coord := ⟨-c.x, c.y⟩

/-- `Coord::negate_y`: reflect over the x-axis. -/
def Coord.negateY (c : Coord) : Coord := ⟨c.x, -c.y⟩

theorem Coord.add_def (a b : Coord) : a + b = ⟨a.x + b.x, a.y + b.y⟩ := rfl

theorem Coord.sub_def (a b : Coord) : a - b = ⟨a.x - b.x, a.y - b.y⟩ := rfl

/-- `Rect` from `src/patterns/rect.rs` (exclusive `right`/`bottom`
convention: a coordinate is contained when `left <= x < right` and
`top <= y < bottom`). -/
structure Rect where
  top : Int
  bottom : Int
  left : Int
  right : Int
deriving DecidableEq, Repr

/-- `Rect::with_corners`: build a normalized `Rect` from any two corners. -/
def Rect.withCorners (corner1 corner2 : Coord) : Rect :=
  { top := min corner1.y corner2.y
    bottom := max corner1.y corner2.y
    left := min corner1.x corner2.x
    right := max corner1.x corner2.x }

/-- `Rect::new`: a `Rect` at the origin with the given dimensions. -/
def Rect.new (dimensions : Coord) : Rect :=
  Rect.withCorners ⟨0, 0⟩ dimensions

/-- `Rect::width`. -/
def Rect.width (r : Rect) : Int := r.right - r.left

/-- `Rect::height`. -/
def Rect.height (r : Rect) : Int := r.bottom - r.top

/-- `Rect::area`. -/
def Rect.area (r : Rect) : Int := r.width * r.height

/-- `Rect::dimensions`. -/
def Rect.dimensions (r : Rect) : Coord := ⟨r.width, r.height⟩

/-- `Rect::offset`: the minimum corner `(left, top)`. -/
def Rect.offset (r : Rect) : Coord := ⟨r.left, r.top⟩

/-- `Rect::contains`. -/
def Rect.containsCoord (r : Rect) (c : Coord) : Bool :=
  c.x ≥ r.left && c.x < r.right && c.y ≥ r.top && c.y < r.bottom

/-- `Rect::translate`. -/
def Rect.translate (r : Rect) (c : Coord) : Rect :=
  { top := r.top + c.y
    bottom := r.bottom + c.y
    left := r.left + c.x
    right := r.right + c.x }

/-- An integer range `[lo, hi)` as a list, modelling a Rust `Range<i32>`
iterated in increasing order. -/
def intRange (lo hi : Int) : List Int :=
  (List.range (hi - lo).toNat).map (fun i : Nat => lo + (i : Int))

/-- `Rect::x_range` (`left..right`). -/
def Rect.xRange (r : Rect) : List Int := intRange r.left r.right

/-- `Rect::y_range` (`top..bottom`). -/
def Rect.yRange (r : Rect) : List Int := intRange r.top r.bottom

/-- The coordinates a doubly nested `for y in r.y_range() { for x in
r.x_range() { .. } }` loop visits, in visiting (row-major) order.  This is
the loop of `VecGrid::with_generator` in `src/vecgrid.rs`. -/
def Rect.rowMajorCoords (r : Rect) : List Coord :=
  r.yRange.flatMap (fun y => r.xRange.map (fun x => Coord.new x y))

/-- `VecGrid` from `src/vecgrid.rs`: row-major cell storage plus bounds. -/
structure VecGrid (α : Type) where
  cells : List α
  bounds : Rect

/-- `VecGrid::coord_to_index`: convert a coordinate into a linear index,
`None` when the coordinate is out of bounds.  The in-bounds index is
nonnegative, so the source's `as usize` cast is the identity; we return it
as a `Nat` via `Int.toNat`. -/
def VecGrid.coordToIndex {α : Type} (g : VecGrid α) (c : Coord) : Option Nat :=
  if g.bounds.containsCoord c then
    some ((c.x - g.bounds.left) + (c.y - g.bounds.top) * g.bounds.width).toNat
  else
    none

/-- `VecGrid::index_to_coord_with_bounds`: convert a linear index into a
coordinate.  The source computes `(index as f32 / width as f32).floor()`,
i.e. the floor of the true quotient (`Int.fdiv`), and then
`x = index - y * width`, finally translating by `offset() = (left, top)`. -/
def indexToCoordWithBounds (bounds : Rect) (index : Nat) : Coord :=
  let y : Int := Int.fdiv (index : Int) bounds.width
  let x : Int := (index : Int) - y * bounds.width
  Coord.new x y + bounds.offset

/-- `VecGrid::index_to_coord`. -/
def VecGrid.indexToCoord {α : Type} (g : VecGrid α) (index : Nat) : Coord :=
  indexToCoordWithBounds g.bounds index

/-- `VecGrid::with_generator`: allocate the cells by calling the generator
on every coordinate of `bounds`, in row-major order. -/
def VecGrid.withGenerator {α : Type} (bounds : Rect) (generator : Coord → α) :
    VecGrid α :=
  { cells := bounds.rowMajorCoords.map generator, bounds := bounds }

/-- `VecGrid::new`: every cell holds the default value. -/
def VecGrid.mkDefault (α : Type) [Inhabited α] (bounds : Rect) : VecGrid α :=
  { cells := List.replicate bounds.area.toNat default, bounds := bounds }

/-- `VecGrid::get` (`self.cells.get(self.coord_to_index(coord)?)`). -/
def VecGrid.get {α : Type} (g : VecGrid α) (c : Coord) : Option α := do
  let i ← g.coordToIndex c
  g.cells.get? i

-- Basic bounds facts ---------------------------------------------------------

theorem Rect.containsCoord_iff (r : Rect) (c : Coord) :
    r.containsCoord c = true ↔
      r.left ≤ c.x ∧ c.x < r.right ∧ r.top ≤ c.y ∧ c.y < r.bottom := by
  simp [Rect.containsCoord, and_assoc]

theorem Rect.width_pos_of_contains {r : Rect} {c : Coord}
    (h : r.containsCoord c = true) : 0 < r.width := by
  rcases (r.containsCoord_iff c).1 h with ⟨h1, h2, _, _⟩
  simp only [Rect.width]
  omega

theorem Rect.height_pos_of_contains {r : Rect} {c : Coord}
    (h : r.containsCoord c = true) : 0 < r.height := by
  rcases (r.containsCoord_iff c).1 h with ⟨_, _, h3, h4⟩
  simp only [Rect.height]
  omega

example : Rect.new ⟨8, 4⟩ = ⟨0, 4, 0, 8⟩ := by decide

example : (VecGrid.mkDefault Bool (Rect.new ⟨8, 4⟩)).indexToCoord 12 =
    Coord.new 4 1 := by decide

example : (VecGrid.mkDefault Bool (Rect.new ⟨8, 8⟩)).get (Coord.new (-1) 4) =
    none := by decide

-- C1: the coordinate/index bijection ------------------------------------------

theorem Int.fdiv_add_mul_self (a w b : Int) (hw : 0 < w) (ha0 : 0 ≤ a)
    (haw : a < w) : Int.fdiv (a + b * w) w = b := by
  rw [Int.fdiv_eq_ediv _ (le_of_lt hw)]
  rw [Int.add_mul_ediv_right _ _ (ne_of_gt hw)]
  rw [Int.ediv_eq_zero_of_lt ha0 haw]
  simp

/-- C1.  For every grid and every coordinate `c` inside the grid's bounds,
`coord_to_index` returns an index `i` with `0 ≤ i < area` and
`index_to_coord i = c`: the coordinate-to-index mapping is injective with
`index_to_coord` as its exact left inverse. -/
theorem coordToIndex_roundTrip {α : Type} (g : VecGrid α) (c : Coord)
    (h : g.bounds.containsCoord c = true) :
    ∃ i : Nat, g.coordToIndex c = some i ∧ (i : Int) < g.bounds.area ∧
      g.indexToCoord i = c := by
  rcases (g.bounds.containsCoord_iff c).1 h with ⟨h1, h2, h3, h4⟩
  have hw : 0 < g.bounds.width := Rect.width_pos_of_contains h
  set a : Int := c.x - g.bounds.left with ha
  set b : Int := c.y - g.bounds.top with hb
  have ha0 : 0 ≤ a := by omega
  have haw : a < g.bounds.width := by simp only [Rect.width] at *; omega
  have hb0 : 0 ≤ b := by omega
  have hbh : b < g.bounds.height := by simp only [Rect.height] at *; omega
  have hnn : 0 ≤ a + b * g.bounds.width :=
    add_nonneg ha0 (mul_nonneg hb0 (le_of_lt hw))
  refine ⟨(a + b * g.bounds.width).toNat, ?_, ?_, ?_⟩
  · simp [VecGrid.coordToIndex, h, ha, hb]
  · rw [Int.toNat_of_nonneg hnn]
    calc a + b * g.bounds.width
        < g.bounds.width + b * g.bounds.width := by omega
      _ = (b + 1) * g.bounds.width := by ring
      _ ≤ g.bounds.height * g.bounds.width := by
          exact mul_le_mul_of_nonneg_right (by omega) (le_of_lt hw)
      _ = g.bounds.area := by rw [Rect.area]; ring
  · show indexToCoordWithBounds g.bounds _ = c
    simp only [indexToCoordWithBounds, Int.toNat_of_nonneg hnn]
    rw [Int.fdiv_add_mul_self a g.bounds.width b hw ha0 haw]
    simp only [Coord.new, Coord.add_def, Rect.offset]
    cases c
    simp only [Coord.mk.injEq]
    constructor <;> [skip; skip] <;> simp only [ha, hb] <;> ring

/-- Witness for C1 at a concrete grid: a 5×3 grid with offset `(-2, 1)`,
coordinate `(1, 2)`. -/
theorem coordToIndex_roundTrip_witness :
    (Rect.withCorners ⟨-2, 1⟩ ⟨3, 4⟩).containsCoord (Coord.new 1 2) = true ∧
    ∃ i : Nat,
      (VecGrid.mkDefault Bool (Rect.withCorners ⟨-2, 1⟩ ⟨3, 4⟩)).coordToIndex
          (Coord.new 1 2) = some i ∧
      (i : Int) < (Rect.withCorners ⟨-2, 1⟩ ⟨3, 4⟩).area ∧
      (VecGrid.mkDefault Bool (Rect.withCorners ⟨-2, 1⟩ ⟨3, 4⟩)).indexToCoord i =
        Coord.new 1 2 :=
  ⟨by decide,
   coordToIndex_roundTrip (VecGrid.mkDefault Bool (Rect.withCorners ⟨-2, 1⟩ ⟨3, 4⟩))
     (Coord.new 1 2) (by decide)⟩

-- Row-major enumeration facts (for C8) ----------------------------------------

theorem intRange_length (lo hi : Int) : (intRange lo hi).length = (hi - lo).toNat := by
  simp [intRange]

theorem intRange_get (lo hi : Int) (i : Nat) (h : i < (hi - lo).toNat) :
    (intRange lo hi).get? i = some (lo + (i : Int)) := by
  simp [intRange, List.get?_map, List.getElem?_range, h]

theorem intRange_mem (lo hi z : Int) :
    z ∈ intRange lo hi ↔ lo ≤ z ∧ z < hi := by
  simp only [intRange, List.mem_map, List.mem_range]
  constructor
  · rintro ⟨i, hi', rfl⟩
    omega
  · rintro ⟨h1, h2⟩
    refine ⟨(z - lo).toNat, by omega, by omega⟩

theorem intRange_nodup (lo hi : Int) : (intRange lo hi).Nodup :=
  (List.nodup_range _).map (fun a b hab => by omega)

theorem flatMap_get_of_rowLength {α β : Type} (rows : List α) (f : α → List β)
    (w : Nat) (hw : ∀ r ∈ rows, (f r).length = w) (b a : Nat) (ha : a < w) :
    (rows.flatMap f).get? (b * w + a) = (rows.get? b).bind (fun r => (f r).get? a) := by
  induction rows generalizing b with
  | nil => simp
  | cons r rest ih =>
    have hr : (f r).length = w := hw r (List.mem_cons_self r rest)
    cases b with
    | zero =>
      simp only [List.flatMap_cons, Nat.zero_mul, Nat.zero_add, List.get?_cons_zero,
        Option.bind_some]
      rw [List.get?_append (by omega)]
      rfl
    | succ b =>
      simp only [List.flatMap_cons, List.get?_cons_succ]
      rw [List.get?_append_right (by simp [hr]; nlinarith)]
      have harith : (b + 1) * w + a - (f r).length = b * w + a := by
        rw [hr]; ring_nf; omega
      rw [harith]
      exact ih (fun r hr' => hw r (List.mem_cons_of_mem _ hr')) b

theorem rowMajorCoords_mem (r : Rect) (c : Coord) :
    c ∈ r.rowMajorCoords ↔ r.containsCoord c = true := by
  simp only [Rect.rowMajorCoords, List.mem_flatMap, List.mem_map,
    Rect.xRange, Rect.yRange, intRange_mem, Rect.containsCoord_iff]
  constructor
  · rintro ⟨y, hy, x, hx, rfl⟩
    simp only [Coord.new]
    tauto
  · rintro ⟨h1, h2, h3, h4⟩
    exact ⟨c.y, ⟨h3, h4⟩, c.x, ⟨h1, h2⟩, rfl⟩

theorem rowMajorCoords_nodup (r : Rect) : r.rowMajorCoords.Nodup := by
  rw [Rect.rowMajorCoords, List.nodup_flatMap]
  constructor
  · intro y _
    exact (intRange_nodup _ _).map
      (fun a b hab => by simpa [Coord.new] using congrArg Coord.x hab)
  · rw [List.pairwise_iff_forall_sublist]
    rintro y1 y2 hsub
    have hne : y1 ≠ y2 := by
      have h2 := (intRange_nodup r.top r.bottom).sublist hsub
      simp [List.Nodup, List.pairwise_cons] at h2
      exact h2
    intro c hc1 hc2
    simp only [List.mem_map] at hc1 hc2
    rcases hc1 with ⟨x1, _, rfl⟩
    rcases hc2 with ⟨x2, _, h⟩
    exact hne (by simpa [Coord.new] using (congrArg Coord.y h).symm)

theorem rowMajorCoords_length (r : Rect)
    (hnorm : r.left ≤ r.right ∧ r.top ≤ r.bottom) :
    r.rowMajorCoords.length = r.area.toNat := by
  simp only [Rect.rowMajorCoords, List.length_flatMap, Rect.xRange, Rect.yRange]
  have hconst : (List.length ∘ fun y : Int =>
      List.map (fun x => Coord.new x y) (intRange r.left r.right)) =
      fun _ : Int => (r.right - r.left).toNat := by
    funext y
    simp [intRange_length]
  rw [hconst, List.map_const', List.sum_replicate, smul_eq_mul, intRange_length]
  rw [Rect.area, Rect.width, Rect.height]
  obtain ⟨wn, hw⟩ := Int.eq_ofNat_of_zero_le (a := r.right - r.left) (by omega)
  obtain ⟨hn, hh⟩ := Int.eq_ofNat_of_zero_le (a := r.bottom - r.top) (by omega)
  rw [hw, hh, ← Nat.cast_mul, Int.toNat_natCast, Int.toNat_natCast,
    Int.toNat_natCast, Nat.mul_comm]

theorem rowMajorCoords_get_of_contains (r : Rect) (c : Coord)
    (h : r.containsCoord c = true) :
    r.rowMajorCoords.get?
      ((c.x - r.left) + (c.y - r.top) * r.width).toNat = some c := by
  rcases (r.containsCoord_iff c).1 h with ⟨h1, h2, h3, h4⟩
  have hw : 0 < r.width := Rect.width_pos_of_contains h
  set A : Nat := (c.x - r.left).toNat with hA
  set B : Nat := (c.y - r.top).toNat with hB
  set W : Nat := r.width.toNat with hW
  have hAx : (A : Int) = c.x - r.left := by rw [hA]; omega
  have hBy : (B : Int) = c.y - r.top := by rw [hB]; omega
  have hWw : (W : Int) = r.width := by rw [hW]; simp only [Rect.width]; omega
  have hidx : ((c.x - r.left) + (c.y - r.top) * r.width).toNat = B * W + A := by
    rw [← hAx, ← hBy, ← hWw, ← Nat.cast_mul, ← Nat.cast_add, Int.toNat_natCast,
      Nat.add_comm]
  have hAW : A < W := by
    have : c.x - r.left < r.width := by simp only [Rect.width]; omega
    omega
  rw [hidx, Rect.rowMajorCoords]
  rw [flatMap_get_of_rowLength _ _ W (fun y _ => by
    simp [Rect.xRange, List.length_map, intRange_length, hW, Rect.width]) B A hAW]
  have hBrange : B < (r.bottom - r.top).toNat := by
    have : c.y - r.top < r.bottom - r.top := by omega
    omega
  rw [Rect.yRange, intRange_get _ _ B hBrange]
  simp only [Option.some_bind]
  have hArange : A < (r.right - r.left).toNat := by
    have : c.x - r.left < r.right - r.left := by omega
    omega
  rw [Rect.xRange, List.get?_map, intRange_get _ _ A hArange]
  rw [show Option.map (fun x => Coord.new x (r.top + (B : Int)))
      (some (r.left + (A : Int))) =
      some (Coord.new (r.left + (A : Int)) (r.top + (B : Int))) from rfl]
  have hx : r.left + (A : Int) = c.x := by omega
  have hy : r.top + (B : Int) = c.y := by omega
  rw [hx, hy]
  rfl

/-- C8.  `with_generator(bounds, f)` calls the generator once per element of
the row-major enumeration of `bounds` — exactly `bounds.area()` calls, one
per distinct coordinate of `bounds` (the enumeration has no duplicates and
covers exactly the contained coordinates) — and the constructed grid's cell
at `c` is `f c` for every `c` in bounds. -/
theorem withGenerator_spec {α : Type} (bounds : Rect) (f : Coord → α)
    (hnorm : bounds.left ≤ bounds.right ∧ bounds.top ≤ bounds.bottom) :
    (VecGrid.withGenerator bounds f).cells = bounds.rowMajorCoords.map f ∧
    bounds.rowMajorCoords.length = bounds.area.toNat ∧
    bounds.rowMajorCoords.Nodup ∧
    (∀ c : Coord, c ∈ bounds.rowMajorCoords ↔ bounds.containsCoord c = true) ∧
    (∀ c : Coord, bounds.containsCoord c = true →
      (VecGrid.withGenerator bounds f).get c = some (f c)) := by
  refine ⟨rfl, rowMajorCoords_length bounds hnorm, rowMajorCoords_nodup bounds,
    fun c => rowMajorCoords_mem bounds c, fun c hc => ?_⟩
  simp only [VecGrid.get, VecGrid.coordToIndex, VecGrid.withGenerator, hc,
    if_pos, Option.bind_eq_bind, Option.some_bind]
  rw [List.get?_map, rowMajorCoords_get_of_contains bounds c hc]
  rfl

/-- Witness for C8: a 3×2 grid at offset `(1, 1)`, generator `fun c => c`. -/
theorem withGenerator_spec_witness :
    (VecGrid.withGenerator (Rect.withCorners ⟨1, 1⟩ ⟨4, 3⟩) (fun c => c)).get
        (Coord.new 2 2) = some (Coord.new 2 2) ∧
    (Rect.withCorners ⟨1, 1⟩ ⟨4, 3⟩).rowMajorCoords.length =
      (Rect.withCorners ⟨1, 1⟩ ⟨4, 3⟩).area.toNat :=
  ⟨(withGenerator_spec (Rect.withCorners ⟨1, 1⟩ ⟨4, 3⟩) (fun c => c)
      (by decide)).2.2.2.2 (Coord.new 2 2) (by decide),
   (withGenerator_spec (Rect.withCorners ⟨1, 1⟩ ⟨4, 3⟩) (fun c => c)
      (by decide)).2.1⟩

-- Cell operations (for C9) -----------------------------------------------------
-- `get`, `copy`, `swap`, `mov` are the `Grid` trait implementation for
-- `VecGrid` in `src/vecgrid.rs`; `set`, `replace`, `take` are the
-- `get_mut`-based operations of `src/grid.rs` (the trait-provided methods),
-- whose bodies only use `get_mut`/`mem::replace`/`mem::take`.
-- Mutation through a `&mut` cell handle is modelled by rebuilding the cell
-- list with `List.set`.  A state-changing operation returns its result value
-- paired with the updated grid.

/-- `Grid::set`: `if let Some(cell) = self.get_mut(coord) { *cell = value;
true } else { false }`. -/
def VecGrid.setOp {α : Type} (g : VecGrid α) (c : Coord) (v : α) :
    Bool × VecGrid α :=
  match g.coordToIndex c with
  | some i =>
    if i < g.cells.length then (true, ⟨g.cells.set i v, g.bounds⟩)
    else (false, g)
  | none => (false, g)

/-- `Grid::replace`: `self.get_mut(coord).and_then(|cell| Some(mem::replace(
cell, value)))`. -/
def VecGrid.replaceOp {α : Type} (g : VecGrid α) (c : Coord) (v : α) :
    Option α × VecGrid α :=
  match g.coordToIndex c with
  | some i =>
    match g.cells.get? i with
    | some old => (some old, ⟨g.cells.set i v, g.bounds⟩)
    | none => (none, g)
  | none => (none, g)

/-- `Grid::take`: `self.get_mut(coord).and_then(|cell| Some(mem::take(cell)))`
— replace with the default value, returning the previous contents. -/
def VecGrid.takeOp {α : Type} [Inhabited α] (g : VecGrid α) (c : Coord) :
    Option α × VecGrid α :=
  g.replaceOp c default

/-- `Grid::copy` for `VecGrid`: both coordinates must resolve to indices,
then `cells.copy_within(src..src+1, dest)` duplicates the source cell.  (For
a well-formed grid the resolved indices are always in range; `getD` is the
total stand-in for the vector read.) -/
def VecGrid.copyOp {α : Type} [Inhabited α] (g : VecGrid α) (src dest : Coord) :
    Bool × VecGrid α :=
  match g.coordToIndex src with
  | some si =>
    match g.coordToIndex dest with
    | some di => (true, ⟨g.cells.set di (g.cells.getD si default), g.bounds⟩)
    | none => (false, g)
  | none => (false, g)

/-- `Grid::swap` for `VecGrid`: both coordinates must resolve to indices,
then `cells.swap(index1, index2)`. -/
def VecGrid.swapOp {α : Type} [Inhabited α] (g : VecGrid α) (c1 c2 : Coord) :
    Bool × VecGrid α :=
  match g.coordToIndex c1 with
  | some i1 =>
    match g.coordToIndex c2 with
    | some i2 =>
      (true, ⟨(g.cells.set i1 (g.cells.getD i2 default)).set i2
        (g.cells.getD i1 default), g.bounds⟩)
    | none => (false, g)
  | none => (false, g)

/-- `Grid::mov` for `VecGrid`: both coordinates are bounds-checked up front
(`if !(self.bounds.contains(src) && self.bounds.contains(dest)) { return
None; }`), then `take(src)` (whose `unwrap` always succeeds on a well-formed
grid; the unreachable `none` arm returns the grid untouched) and
`replace(dest, src_value)`. -/
def VecGrid.movOp {α : Type} [Inhabited α] (g : VecGrid α) (src dest : Coord) :
    Option α × VecGrid α :=
  if g.bounds.containsCoord src && g.bounds.containsCoord dest then
    match g.takeOp src with
    | (some v, g1) => g1.replaceOp dest v
    | (none, g1) => (none, g1)
  else
    (none, g)

theorem coordToIndex_eq_none {α : Type} (g : VecGrid α) (c : Coord)
    (h : g.bounds.containsCoord c = false) : g.coordToIndex c = none := by
  simp [VecGrid.coordToIndex, h]

/-- C9.  Every non-iteration cell operation degrades softly on an
out-of-bounds coordinate: `get`/`replace`/`take`/`mov` return `none`,
`set`/`copy`/`swap` return `false`, and in every case the grid — in
particular its cell storage — is returned unchanged. -/
theorem cellOps_out_of_bounds_soft {α : Type} [Inhabited α] (g : VecGrid α)
    (c d : Coord) (v : α) (h : g.bounds.containsCoord c = false) :
    g.get c = none ∧
    g.setOp c v = (false, g) ∧
    g.replaceOp c v = (none, g) ∧
    g.takeOp c = (none, g) ∧
    g.copyOp c d = (false, g) ∧
    g.copyOp d c = (false, g) ∧
    g.swapOp c d = (false, g) ∧
    g.swapOp d c = (false, g) ∧
    g.movOp c d = (none, g) ∧
    g.movOp d c = (none, g) := by
  have hn : g.coordToIndex c = none := coordToIndex_eq_none g c h
  refine ⟨?_, ?_, ?_, ?_, ?_, ?_, ?_, ?_, ?_, ?_⟩
  · simp [VecGrid.get, hn]
  · simp [VecGrid.setOp, hn]
  · simp [VecGrid.replaceOp, hn]
  · simp [VecGrid.takeOp, VecGrid.replaceOp, hn]
  · simp [VecGrid.copyOp, hn]
  · cases hd : g.coordToIndex d <;> simp [VecGrid.copyOp, hn, hd]
  · simp [VecGrid.swapOp, hn]
  · cases hd : g.coordToIndex d <;> simp [VecGrid.swapOp, hn, hd]
  · simp [VecGrid.movOp, h]
  · simp [VecGrid.movOp, h]

/-- Witness for C9: an 8×8 grid at the origin and the out-of-bounds
coordinate `(-1, 4)`. -/
theorem cellOps_out_of_bounds_soft_witness :
    (VecGrid.mkDefault Bool (Rect.new ⟨8, 8⟩)).get (Coord.new (-1) 4) = none ∧
    (VecGrid.mkDefault Bool (Rect.new ⟨8, 8⟩)).movOp (Coord.new (-1) 4)
        (Coord.new 0 0) =
      (none, VecGrid.mkDefault Bool (Rect.new ⟨8, 8⟩)) :=
  ⟨(cellOps_out_of_bounds_soft (VecGrid.mkDefault Bool (Rect.new ⟨8, 8⟩))
      (Coord.new (-1) 4) (Coord.new 0 0) true (by decide)).1,
   (cellOps_out_of_bounds_soft (VecGrid.mkDefault Bool (Rect.new ⟨8, 8⟩))
      (Coord.new (-1) 4) (Coord.new 0 0) true (by decide)).2.2.2.2.2.2.2.2.1⟩

-- Selection iteration (for C2) -------------------------------------------------

/-- `GridError` from `src/grid.rs`. -/
inductive GridError where
  | outOfBounds (c : Coord)
  | alreadyVisited (c : Coord)
deriving DecidableEq, Repr

/-- Write through a `&mut` handle obtained from `get_mut`: replace the cell
at the index `coord_to_index` resolves to (the identity when the coordinate
does not resolve — `get_mut` then hands out no reference at all). -/
def VecGrid.setCellAt {α : Type} (g : VecGrid α) (c : Coord) (v : α) :
    VecGrid α :=
  match g.coordToIndex c with
  | some i => ⟨g.cells.set i v, g.bounds⟩
  | none => g

/-- `SelectionIterMut::next` from `src/vecgrid.rs`, driven to exhaustion by a
caller that writes `f coord old-value` through every exclusive cell handle it
is handed (the canonical `for res_cell in grid.selection_iter_mut(coords)`
loop).  For each requested coordinate: if it is in `visited_coords`, an
`AlreadyVisited` error is emitted and iteration continues; otherwise if
`get_mut` succeeds, the coordinate is inserted into `visited_coords` and the
cell is yielded (here: mutated through `f`); otherwise an `OutOfBounds`
error is emitted.  Returns the per-coordinate results, the final grid and
the final visited set. -/
def selectionIterMutRun {α : Type} (f : Coord → α → α) :
    VecGrid α → List Coord → List Coord →
    List (Except GridError Coord) × (VecGrid α × List Coord)
  | g, visited, [] => ([], (g, visited))
  | g, visited, c :: rest =>
    if visited.contains c then
      let r := selectionIterMutRun f g visited rest
      (Except.error (GridError.alreadyVisited c) :: r.1, r.2)
    else
      match g.get c with
      | some cell =>
        let r := selectionIterMutRun f (g.setCellAt c (f c cell))
          (visited ++ [c]) rest
        (Except.ok c :: r.1, r.2)
      | none =>
        let r := selectionIterMutRun f g visited rest
        (Except.error (GridError.outOfBounds c) :: r.1, r.2)

theorem setCellAt_bounds {α : Type} (g : VecGrid α) (c : Coord) (v : α) :
    (g.setCellAt c v).bounds = g.bounds := by
  unfold VecGrid.setCellAt
  split <;> rfl

theorem coordToIndex_some_contains {α : Type} {g : VecGrid α} {c : Coord}
    {i : Nat} (h : g.coordToIndex c = some i) :
    g.bounds.containsCoord c = true := by
  unfold VecGrid.coordToIndex at h
  split at h
  · assumption
  · cases h

theorem coordToIndex_injective {α : Type} (g : VecGrid α) {c d : Coord}
    {i : Nat} (hc : g.coordToIndex c = some i)
    (hd : g.coordToIndex d = some i) : c = d := by
  obtain ⟨ic, hic, _, hicc⟩ :=
    coordToIndex_roundTrip g c (coordToIndex_some_contains hc)
  obtain ⟨id', hid, _, hidd⟩ :=
    coordToIndex_roundTrip g d (coordToIndex_some_contains hd)
  rw [hc] at hic
  rw [hd] at hid
  cases Option.some.inj hic
  cases Option.some.inj hid
  rw [← hicc, ← hidd]

theorem setCellAt_coordToIndex {α : Type} (g : VecGrid α) (c d : Coord)
    (v : α) : (g.setCellAt c v).coordToIndex d = g.coordToIndex d := by
  unfold VecGrid.setCellAt
  split <;> rfl

theorem setCellAt_get_ne {α : Type} (g : VecGrid α) {c d : Coord} (v : α)
    (hne : c ≠ d) : (g.setCellAt c v).get d = g.get d := by
  unfold VecGrid.get
  rw [setCellAt_coordToIndex]
  cases hd : g.coordToIndex d with
  | none => rfl
  | some j =>
    simp only [Option.bind_eq_bind, Option.some_bind]
    unfold VecGrid.setCellAt
    cases hc : g.coordToIndex c with
    | none => rfl
    | some i =>
      have hij : i ≠ j := fun h => hne (coordToIndex_injective g hc (h ▸ hd))
      exact List.get?_set_ne v g.cells hij

theorem get_some_index {α : Type} {g : VecGrid α} {c : Coord} {w : α}
    (h : g.get c = some w) :
    ∃ i, g.coordToIndex c = some i ∧ g.cells.get? i = some w := by
  unfold VecGrid.get at h
  cases hc : g.coordToIndex c with
  | none => rw [hc] at h; cases h
  | some i =>
    rw [hc] at h
    exact ⟨i, rfl, h⟩

theorem setCellAt_get_self {α : Type} (g : VecGrid α) {c : Coord} {w : α}
    (v : α) (h : g.get c = some w) : (g.setCellAt c v).get c = some v := by
  obtain ⟨i, hi, hcell⟩ := get_some_index h
  have hlen : i < g.cells.length := by
    by_contra hge
    rw [List.get?_eq_none.2 (by omega)] at hcell
    cases hcell
  unfold VecGrid.get
  rw [setCellAt_coordToIndex, hi]
  unfold VecGrid.setCellAt
  rw [hi]
  simp only [Option.bind_eq_bind, Option.some_bind]
  exact List.get?_set_eq_of_lt v hlen

theorem selectionIterMutRun_length {α : Type} (f : Coord → α → α)
    (coords : List Coord) : ∀ (g : VecGrid α) (visited : List Coord),
    (selectionIterMutRun f g visited coords).1.length = coords.length := by
  induction coords with
  | nil => intro g visited; rfl
  | cons c rest ih =>
    intro g visited
    simp only [selectionIterMutRun]
    split
    · simp [ih]
    · split <;> simp [ih]

theorem selectionIterMutRun_append {α : Type} (f : Coord → α → α)
    (xs ys : List Coord) : ∀ (g : VecGrid α) (visited : List Coord),
    selectionIterMutRun f g visited (xs ++ ys) =
      ((selectionIterMutRun f g visited xs).1 ++
        (selectionIterMutRun f (selectionIterMutRun f g visited xs).2.1
          (selectionIterMutRun f g visited xs).2.2 ys).1,
       (selectionIterMutRun f (selectionIterMutRun f g visited xs).2.1
          (selectionIterMutRun f g visited xs).2.2 ys).2) := by
  induction xs with
  | nil => intro g visited; rfl
  | cons c rest ih =>
    intro g visited
    simp only [List.cons_append, selectionIterMutRun]
    split
    · simp [ih]
    · split <;> simp [ih]

theorem selectionIterMutRun_get {α : Type} (f : Coord → α → α)
    (coords : List Coord) : ∀ (g : VecGrid α) (visited : List Coord) (d : Coord),
    ((selectionIterMutRun f g visited coords).2.1).get d =
      if d ∈ coords ∧ d ∉ visited then Option.map (f d) (g.get d)
      else g.get d := by
  induction coords with
  | nil =>
    intro g visited d
    simp [selectionIterMutRun]
  | cons c rest ih =>
    intro g visited d
    simp only [selectionIterMutRun]
    split
    · -- already visited: no mutation in this step
      rename_i hvis
      rw [ih]
      by_cases hdc : d = c
      · subst hdc
        have hdv : d ∈ visited := by simpa using hvis
        simp [hdv]
      · simp only [List.mem_cons]
        by_cases hdr : d ∈ rest <;> by_cases hdv : d ∈ visited <;>
          simp [hdc, hdr, hdv]
    · -- fresh coordinate: cases on get
      rename_i hvis
      split
      · rename_i cell hget
        rw [ih]
        by_cases hdc : d = c
        · subst hdc
          have hdv : d ∉ visited := by
            intro hmem
            exact hvis (by simpa using hmem)
          have hnotin : d ∉ visited ++ [d] → False := by simp
          simp only [List.mem_append, List.mem_cons, List.mem_singleton]
          rw [if_neg (by simp)]
          rw [setCellAt_get_self g (f d cell) hget]
          simp [hget, hdv]
        · rw [setCellAt_get_ne g (f c cell) (fun h => hdc h.symm)]
          simp only [List.mem_cons, List.mem_append, List.mem_singleton]
          by_cases hdr : d ∈ rest <;> by_cases hdv : d ∈ visited <;>
            simp [hdc, hdr, hdv]
      · rename_i hget
        rw [ih]
        by_cases hdc : d = c
        · subst hdc
          by_cases hdr : d ∈ rest <;> by_cases hdv : d ∈ visited <;>
            simp [hdr, hdv, hget]
        · simp only [List.mem_cons]
          by_cases hdr : d ∈ rest <;> by_cases hdv : d ∈ visited <;>
            simp [hdc, hdr, hdv]

theorem selectionIterMutRun_visited {α : Type} (f : Coord → α → α)
    (coords : List Coord) : ∀ (g : VecGrid α) (visited : List Coord) (d : Coord),
    d ∈ (selectionIterMutRun f g visited coords).2.2 ↔
      d ∈ visited ∨ (d ∈ coords ∧ (g.get d).isSome) := by
  induction coords with
  | nil =>
    intro g visited d
    simp [selectionIterMutRun]
  | cons c rest ih =>
    intro g visited d
    simp only [selectionIterMutRun]
    split
    · rename_i hvis
      rw [ih]
      by_cases hdc : d = c
      · subst hdc
        have hdv : d ∈ visited := by simpa using hvis
        simp [hdv]
      · simp [hdc]
    · rename_i hvis
      split
      · rename_i cell hget
        rw [ih]
        by_cases hdc : d = c
        · subst hdc
          simp [hget]
        · have hgd : ((g.setCellAt c (f c cell)).get d).isSome =
              (g.get d).isSome := by
            rw [setCellAt_get_ne g (f c cell) (fun h => hdc h.symm)]
          rw [hgd]
          simp only [List.mem_append, List.mem_singleton, List.mem_cons]
          tauto
      · rename_i hget
        rw [ih]
        by_cases hdc : d = c
        · subst hdc
          simp [hget]
        · simp [hdc]

theorem selectionIterMutRun_get_isSome {α : Type} (f : Coord → α → α)
    (coords : List Coord) (g : VecGrid α) (visited : List Coord) (d : Coord) :
    (((selectionIterMutRun f g visited coords).2.1).get d).isSome =
      (g.get d).isSome := by
  rw [selectionIterMutRun_get]
  split <;> simp

theorem selectionIterMutRun_ok_head {α : Type} (f : Coord → α → α)
    (g : VecGrid α) (visited : List Coord) (c : Coord) (post : List Coord)
    (hvis : c ∉ visited) (hget : (g.get c).isSome = true) :
    (selectionIterMutRun f g visited (c :: post)).1.get? 0 =
      some (Except.ok c) := by
  obtain ⟨cell, hcell⟩ := Option.isSome_iff_exists.1 hget
  simp only [selectionIterMutRun]
  rw [if_neg (by simpa using hvis), hcell]
  rfl

theorem selectionIterMutRun_visited_head {α : Type} (f : Coord → α → α)
    (g : VecGrid α) (visited : List Coord) (c : Coord) (post : List Coord)
    (hvis : c ∈ visited) :
    (selectionIterMutRun f g visited (c :: post)).1.get? 0 =
      some (Except.error (GridError.alreadyVisited c)) := by
  simp only [selectionIterMutRun]
  rw [if_pos (by simpa using hvis)]
  rfl

/-- C2.  Driving `selection_iter_mut` over a coordinate list in which the
in-bounds coordinate `c` occurs (at least) twice — first occurrence at
position `pre.length`, a later occurrence after `mid` — yields `Ok` at the
first occurrence and `AlreadyVisited` at the repeat; the iteration does not
stop early (one result per requested coordinate); and the cell at `c` is
mutated exactly once (its final value is `f c w`, not a double
application). -/
theorem selectionIterMut_duplicate_spec {α : Type} (g : VecGrid α)
    (f : Coord → α → α) (pre mid post : List Coord) (c : Coord) (w : α)
    (hpre : c ∉ pre) (hw : g.get c = some w) :
    (selectionIterMutRun f g [] (pre ++ [c] ++ mid ++ [c] ++ post)).1.length =
      (pre ++ [c] ++ mid ++ [c] ++ post).length ∧
    (selectionIterMutRun f g [] (pre ++ [c] ++ mid ++ [c] ++ post)).1.get?
        pre.length = some (Except.ok c) ∧
    (selectionIterMutRun f g [] (pre ++ [c] ++ mid ++ [c] ++ post)).1.get?
        (pre.length + 1 + mid.length) =
      some (Except.error (GridError.alreadyVisited c)) ∧
    ((selectionIterMutRun f g [] (pre ++ [c] ++ mid ++ [c] ++ post)).2.1).get
        c = some (f c w) := by
  have hform : pre ++ [c] ++ mid ++ [c] ++ post =
      pre ++ ([c] ++ (mid ++ ([c] ++ post))) := by simp
  refine ⟨selectionIterMutRun_length f _ g [], ?_, ?_, ?_⟩
  · -- first occurrence: Ok
    rw [hform]
    rw [selectionIterMutRun_append f pre ([c] ++ (mid ++ ([c] ++ post))) g []]
    rw [List.get?_append_right (by rw [selectionIterMutRun_length])]
    rw [selectionIterMutRun_length, Nat.sub_self]
    apply selectionIterMutRun_ok_head
    · rw [selectionIterMutRun_visited]
      simp [hpre]
    · rw [selectionIterMutRun_get_isSome, hw]
      rfl
  · -- repeated occurrence: AlreadyVisited
    have hsplit : pre ++ [c] ++ mid ++ [c] ++ post =
        (pre ++ ([c] ++ mid)) ++ ([c] ++ post) := by simp
    rw [hsplit]
    rw [selectionIterMutRun_append f (pre ++ ([c] ++ mid)) ([c] ++ post) g []]
    have hlen : (selectionIterMutRun f g [] (pre ++ ([c] ++ mid))).1.length =
        pre.length + 1 + mid.length := by
      rw [selectionIterMutRun_length]
      simp only [List.length_append, List.length_cons, List.length_nil]
      omega
    rw [List.get?_append_right (le_of_eq hlen)]
    rw [hlen, Nat.sub_self]
    apply selectionIterMutRun_visited_head
    rw [selectionIterMutRun_visited]
    refine Or.inr ⟨by simp, by rw [hw]; rfl⟩
  · rw [selectionIterMutRun_get]
    rw [if_pos (by simp)]
    rw [hw]
    rfl

/-- Witness for C2: the spec's own example — a 4×4 grid, coordinate list
`[(2,2), (2,2)]`, caller writing `true` through every yielded handle. -/
theorem selectionIterMut_duplicate_spec_witness :
    (selectionIterMutRun (fun _ _ => true)
        (VecGrid.mkDefault Bool (Rect.new ⟨4, 4⟩)) []
        ([] ++ [Coord.new 2 2] ++ [] ++ [Coord.new 2 2] ++ [])).1.get? 0 =
      some (Except.ok (Coord.new 2 2)) ∧
    (selectionIterMutRun (fun _ _ => true)
        (VecGrid.mkDefault Bool (Rect.new ⟨4, 4⟩)) []
        ([] ++ [Coord.new 2 2] ++ [] ++ [Coord.new 2 2] ++ [])).1.get? 1 =
      some (Except.error (GridError.alreadyVisited (Coord.new 2 2))) ∧
    ((selectionIterMutRun (fun _ _ => true)
        (VecGrid.mkDefault Bool (Rect.new ⟨4, 4⟩)) []
        ([] ++ [Coord.new 2 2] ++ [] ++ [Coord.new 2 2] ++ [])).2.1).get
      (Coord.new 2 2) = some true :=
  ⟨(selectionIterMut_duplicate_spec (VecGrid.mkDefault Bool (Rect.new ⟨4, 4⟩))
      (fun _ _ => true) [] [] [] (Coord.new 2 2) false (by simp)
      (by decide)).2.1,
   (selectionIterMut_duplicate_spec (VecGrid.mkDefault Bool (Rect.new ⟨4, 4⟩))
      (fun _ _ => true) [] [] [] (Coord.new 2 2) false (by simp)
      (by decide)).2.2.1,
   (selectionIterMut_duplicate_spec (VecGrid.mkDefault Bool (Rect.new ⟨4, 4⟩))
      (fun _ _ => true) [] [] [] (Coord.new 2 2) false (by simp)
      (by decide)).2.2.2⟩

-- Neighborhoods and cluster layers (for C3, C7, C10) ---------------------------

/-- `NEIGHBOR_OFFSETS` from `src/patterns/neighborhood.rs`: the Moore
neighborhood offsets, in source order N, NE, E, SE, S, SW, W, NW
(`NORTH = (0, 1)`, `SOUTH = (0, -1)`, `EAST = (1, 0)`, `WEST = (-1, 0)`). -/
def NEIGHBOR_OFFSETS : List Coord :=
  [⟨0, 1⟩, ⟨1, 1⟩, ⟨1, 0⟩, ⟨1, -1⟩, ⟨0, -1⟩, ⟨-1, -1⟩, ⟨-1, 0⟩, ⟨-1, 1⟩]

/-- `ORTHO_NEIGHBOR_OFFSETS`: the von Neumann neighborhood offsets,
N, E, S, W. -/
def ORTHO_NEIGHBOR_OFFSETS : List Coord :=
  [⟨0, 1⟩, ⟨1, 0⟩, ⟨0, -1⟩, ⟨-1, 0⟩]

/-- `Neighborhood::iter`: the eight Moore neighbors of a coordinate. -/
def mooreNeighborhood (c : Coord) : List Coord :=
  NEIGHBOR_OFFSETS.map (fun offset => c + offset)

/-- `Neighborhood::iter_ortho`: the four orthogonal neighbors of a
coordinate. -/
def orthoNeighborhood (c : Coord) : List Coord :=
  ORTHO_NEIGHBOR_OFFSETS.map (fun offset => c + offset)

/-- `Cluster::external_neighbors` from `src/cluster.rs`: the Moore neighbors
of `c` that are not members of the cluster. -/
def externalNeighbors (cl : Finset Coord) (c : Coord) : List Coord :=
  (mooreNeighborhood c).filter (fun n => decide (n ∉ cl))

/-- `Cluster::iter_interior`: cluster coords with no external neighbors. -/
def clusterInterior (cl : Finset Coord) : Finset Coord :=
  cl.filter (fun c => (externalNeighbors cl c).length = 0)

/-- `Cluster::iter_internal_border`: cluster coords with at least one
external neighbor. -/
def clusterInternalBorder (cl : Finset Coord) : Finset Coord :=
  cl.filter (fun c => (externalNeighbors cl c).length ≠ 0)

/-- `Cluster::iter_external_border`: all external neighbors of cluster
coords (each reported once — the source deduplicates through
`external_border_coords`). -/
def clusterExternalBorder (cl : Finset Coord) : Finset Coord :=
  cl.biUnion (fun c => (externalNeighbors cl c).toFinset)

/-- The 3×3 square cluster `{0,1,2} × {0,1,2}` from the source's tests. -/
def squareCluster : Finset Coord :=
  {⟨0, 0⟩, ⟨1, 0⟩, ⟨2, 0⟩, ⟨0, 1⟩, ⟨1, 1⟩, ⟨2, 1⟩, ⟨0, 2⟩, ⟨1, 2⟩, ⟨2, 2⟩}

/-- C7.  For every cluster, the interior and internal-border layers are
disjoint and partition the cluster, and the external border is disjoint
from the cluster; the singleton cluster has layer sizes 0 / 1 / 8 and the
3×3 square cluster has layer sizes 1 / 8 / 16. -/
theorem clusterLayers_spec :
    (∀ cl : Finset Coord,
      Disjoint (clusterInterior cl) (clusterInternalBorder cl) ∧
      clusterInterior cl ∪ clusterInternalBorder cl = cl ∧
      Disjoint (clusterExternalBorder cl) cl) ∧
    (clusterInterior {Coord.new 0 0}).card = 0 ∧
    (clusterInternalBorder {Coord.new 0 0}).card = 1 ∧
    (clusterExternalBorder {Coord.new 0 0}).card = 8 ∧
    (clusterInterior squareCluster).card = 1 ∧
    (clusterInternalBorder squareCluster).card = 8 ∧
    (clusterExternalBorder squareCluster).card = 16 := by
  refine ⟨fun cl => ⟨?_, ?_, ?_⟩, by decide, by decide, by decide,
    by decide, by decide, by decide⟩
  · rw [Finset.disjoint_left]
    intro a ha hb
    simp only [clusterInterior, clusterInternalBorder, Finset.mem_filter] at ha hb
    exact hb.2 ha.2
  · ext a
    simp only [clusterInterior, clusterInternalBorder, Finset.mem_union,
      Finset.mem_filter]
    tauto
  · rw [Finset.disjoint_left]
    intro a ha hb
    simp only [clusterExternalBorder, Finset.mem_biUnion, List.mem_toFinset,
      externalNeighbors, List.mem_filter, decide_eq_true_eq] at ha
    obtain ⟨c, _, _, hnot⟩ := ha
    exact hnot hb

-- BSP partitioning (for C6) ----------------------------------------------------

/-- `Orientation` from `src/patterns/rect.rs` (named `SplitOrientation` here
because Mathlib already declares an `Orientation`). -/
inductive SplitOrientation where
  | horizontal
  | vertical
deriving DecidableEq, Repr

/-- `Orientation::orthogonal`. -/
def SplitOrientation.orthogonal : SplitOrientation → SplitOrientation
  | .horizontal => .vertical
  | .vertical => .horizontal

/-- `Rect::partition_horizontal`: split at `left + partition` into the left
part (`right` replaced) and the right part (`left` replaced). -/
def Rect.partitionHorizontal (r : Rect) (partition : Int) : Rect × Rect :=
  ({ r with right := r.left + partition }, { r with left := r.left + partition })

/-- `Rect::partition_vertical`: split at `top + partition` into the lower
part (`top` replaced) and the upper part (`bottom` replaced). -/
def Rect.partitionVertical (r : Rect) (partition : Int) : Rect × Rect :=
  ({ r with top := r.top + partition }, { r with bottom := r.top + partition })

/-- `BspTree` from `src/patterns/rect.rs`. -/
inductive BspTree where
  | node (rect : Rect) (first second : BspTree)
  | leaf (rect : Rect)
deriving Repr

/-- `BspTree::leaves`: all leaf `Rect`s, left to right, depth first. -/
def BspTree.leaves : BspTree → List Rect
  | .node _ first second => first.leaves ++ second.leaves
  | .leaf rect => [rect]

/-- `Rect::bsp`: recursively partition with the splitter.  The source's
recursion terminates only when the splitter eventually refuses, so the
embedding carries fuel and returns `none` when the fuel runs out; a run of
the source algorithm that terminates is exactly a run that succeeds here for
some fuel. -/
def Rect.bspFuel (fuel : Nat) (r : Rect) (orientation : SplitOrientation)
    (splitter : Rect → SplitOrientation → Option (Int × SplitOrientation)) :
    Option BspTree :=
  match fuel with
  | 0 => none
  | fuel + 1 =>
    match splitter r orientation with
    | some (partition, nextOrientation) =>
      let pair := match orientation with
        | .horizontal => r.partitionHorizontal partition
        | .vertical => r.partitionVertical partition
      match Rect.bspFuel fuel pair.1 nextOrientation splitter,
          Rect.bspFuel fuel pair.2 nextOrientation splitter with
      | some first, some second => some (.node r first second)
      | _, _ => none
    | none => some (.leaf r)

/-- A splitter returns in-range partition offsets: between `0` and the
length of the side being cut. -/
def splitterInRange
    (splitter : Rect → SplitOrientation → Option (Int × SplitOrientation)) :
    Prop :=
  ∀ r o p o2, splitter r o = some (p, o2) →
    0 ≤ p ∧ p ≤ (match o with
      | SplitOrientation.horizontal => r.width
      | SplitOrientation.vertical => r.height)

theorem partitionHorizontal_area (r : Rect) (p : Int) :
    (r.partitionHorizontal p).1.area + (r.partitionHorizontal p).2.area =
      r.area := by
  simp only [Rect.partitionHorizontal, Rect.area, Rect.width, Rect.height]
  ring

theorem partitionVertical_area (r : Rect) (p : Int) :
    (r.partitionVertical p).1.area + (r.partitionVertical p).2.area =
      r.area := by
  simp only [Rect.partitionVertical, Rect.area, Rect.width, Rect.height]
  ring

theorem partitionHorizontal_count (r : Rect) (p : Int) (c : Coord)
    (h0 : 0 ≤ p) (hle : p ≤ r.width) :
    ((if (r.partitionHorizontal p).1.containsCoord c then 1 else 0) : Nat) +
      (if (r.partitionHorizontal p).2.containsCoord c then 1 else 0) =
      if r.containsCoord c then 1 else 0 := by
  simp only [Rect.width] at hle
  split_ifs with hA hB hB hA hB hB <;>
    simp [Rect.containsCoord_iff, Rect.partitionHorizontal] at * <;>
    omega

theorem partitionVertical_count (r : Rect) (p : Int) (c : Coord)
    (h0 : 0 ≤ p) (hle : p ≤ r.height) :
    ((if (r.partitionVertical p).1.containsCoord c then 1 else 0) : Nat) +
      (if (r.partitionVertical p).2.containsCoord c then 1 else 0) =
      if r.containsCoord c then 1 else 0 := by
  simp only [Rect.height] at hle
  split_ifs with hA hB hB hA hB hB <;>
    simp [Rect.containsCoord_iff, Rect.partitionVertical] at * <;>
    omega

/-- C6.  Whenever the bsp recursion terminates (succeeds with some fuel) and
the splitter only ever returns in-range partition offsets, the leaves of the
resulting tree exactly tile the root: the leaf areas sum to the root's area,
and every coordinate is contained in exactly one leaf iff it is contained in
the root (so leaves are pairwise disjoint and cover the root). -/
theorem bspFuel_leaves_tile
    (splitter : Rect → SplitOrientation → Option (Int × SplitOrientation))
    (hrange : splitterInRange splitter) :
    ∀ (fuel : Nat) (r : Rect) (o : SplitOrientation) (t : BspTree),
      Rect.bspFuel fuel r o splitter = some t →
      (t.leaves.map Rect.area).sum = r.area ∧
      ∀ c : Coord, t.leaves.countP (fun l => l.containsCoord c) =
        if r.containsCoord c then 1 else 0 := by
  intro fuel
  induction fuel with
  | zero =>
    intro r o t h
    cases h
  | succ fuel ih =>
    intro r o t h
    rw [Rect.bspFuel] at h
    cases hsp : splitter r o with
    | none =>
      rw [hsp] at h
      simp only [Option.some.injEq] at h
      subst h
      constructor
      · simp [BspTree.leaves]
      · intro c
        simp [BspTree.leaves, List.countP_cons, List.countP_nil]
    | some po =>
      obtain ⟨p, o2⟩ := po
      rw [hsp] at h
      simp only [] at h
      cases hl : Rect.bspFuel fuel
          (match o with
            | SplitOrientation.horizontal => r.partitionHorizontal p
            | SplitOrientation.vertical => r.partitionVertical p).1 o2 splitter with
      | none =>
        rw [hl] at h
        cases h
      | some first =>
        cases hr : Rect.bspFuel fuel
            (match o with
              | SplitOrientation.horizontal => r.partitionHorizontal p
              | SplitOrientation.vertical => r.partitionVertical p).2 o2 splitter with
        | none =>
          rw [hl, hr] at h
          cases h
        | some second =>
          rw [hl, hr] at h
          simp only [Option.some.injEq] at h
          subst h
          obtain ⟨hsum1, hcount1⟩ := ih _ o2 first hl
          obtain ⟨hsum2, hcount2⟩ := ih _ o2 second hr
          obtain ⟨hp0, hple⟩ := hrange r o p o2 hsp
          constructor
          · simp only [BspTree.leaves, List.map_append, List.sum_append,
              hsum1, hsum2]
            cases o with
            | horizontal => exact partitionHorizontal_area r p
            | vertical => exact partitionVertical_area r p
          · intro c
            simp only [BspTree.leaves, List.countP_append, hcount1 c,
              hcount2 c]
            cases o with
            | horizontal => exact partitionHorizontal_count r p c hp0 hple
            | vertical => exact partitionVertical_count r p c hp0 hple

/-- A concrete bisecting splitter (as in the source's
`equally_subdivided_bsp` test, with minimum side 4): cut the current axis in
half while it is at least 4 long, alternating orientations. -/
def bspWitnessSplitter :
    Rect → SplitOrientation → Option (Int × SplitOrientation) := fun r o =>
  match o with
  | SplitOrientation.horizontal =>
    if 4 ≤ r.width then some (2, SplitOrientation.vertical) else none
  | SplitOrientation.vertical =>
    if 4 ≤ r.height then some (2, SplitOrientation.horizontal) else none

theorem bspWitnessSplitter_inRange : splitterInRange bspWitnessSplitter := by
  intro r o p o2 h
  cases o with
  | horizontal =>
    simp only [bspWitnessSplitter] at h
    split at h
    · simp only [Option.some.injEq, Prod.mk.injEq] at h
      obtain ⟨rfl, rfl⟩ := h
      exact ⟨by omega, show (2 : Int) ≤ r.width by omega⟩
    · cases h
  | vertical =>
    simp only [bspWitnessSplitter] at h
    split at h
    · simp only [Option.some.injEq, Prod.mk.injEq] at h
      obtain ⟨rfl, rfl⟩ := h
      exact ⟨by omega, show (2 : Int) ≤ r.height by omega⟩
    · cases h

/-- The tree the witness splitter produces on a 4×4 rect at the origin. -/
def bspWitnessTree : BspTree :=
  match Rect.bspFuel 3 (Rect.new ⟨4, 4⟩) SplitOrientation.horizontal
      bspWitnessSplitter with
  | some t => t
  | none => BspTree.leaf (Rect.new ⟨4, 4⟩)

/-- Witness for C6: the bisecting split of a 4×4 rect tiles it (leaf areas
sum to 16, and the coordinate `(1, 3)` lies in exactly one leaf). -/
theorem bspFuel_leaves_tile_witness :
    (bspWitnessTree.leaves.map Rect.area).sum = (Rect.new ⟨4, 4⟩).area ∧
    bspWitnessTree.leaves.countP
      (fun l => l.containsCoord (Coord.new 1 3)) = 1 := by
  have h := bspFuel_leaves_tile bspWitnessSplitter bspWitnessSplitter_inRange
    3 (Rect.new ⟨4, 4⟩) SplitOrientation.horizontal bspWitnessTree (by rfl)
  refine ⟨h.1, ?_⟩
  rw [h.2 (Coord.new 1 3)]
  decide

-- Bresenham line (for C5) ------------------------------------------------------

/-- `LineIter` from `src/patterns/line.rs`.  The `f32` field `fault` always
holds a half-integer, so it is modelled exactly by its double,
`fault2 = 2 * fault`. -/
structure LineIter where
  endCoord : Coord
  nextCoord : Coord
  majorStep : Coord
  minorStep : Coord
  fault2 : Int
  majorFault : Int
  minorFault : Int
  isFinished : Bool
deriving Repr

/-- `Line::iter`: set up the iterator.  `fault` starts at `major_fault / 2`,
i.e. `fault2` starts at `major_fault`. -/
def lineInit (p q : Coord) : LineIter :=
  let delta := q - p
  let xStep : Coord := ⟨Int.sign delta.x, 0⟩
  let yStep : Coord := ⟨0, Int.sign delta.y⟩
  if |delta.x| > |delta.y| then
    { endCoord := q, nextCoord := p, majorStep := xStep, minorStep := yStep,
      fault2 := |delta.x|, majorFault := |delta.x|, minorFault := |delta.y|,
      isFinished := false }
  else
    { endCoord := q, nextCoord := p, majorStep := yStep, minorStep := xStep,
      fault2 := |delta.y|, majorFault := |delta.y|, minorFault := |delta.x|,
      isFinished := false }

/-- `LineIter::next`: finish after yielding the endpoint; otherwise yield
the current coordinate, step the major axis, subtract `minor_fault` from
the error term and, when it drops below zero, add `major_fault` back and
step the minor axis.  (`fault -= minor as f32` and `fault < 0.0` become
`fault2 -= 2 * minor` and `fault2 < 0`.) -/
def lineNext (s : LineIter) : Option (Coord × LineIter) :=
  if s.isFinished then none
  else if s.nextCoord = s.endCoord then
    some (s.endCoord, { s with isFinished := true })
  else
    let f1 := s.fault2 - 2 * s.minorFault
    if f1 < 0 then
      some (s.nextCoord,
        { s with nextCoord := s.nextCoord + s.majorStep + s.minorStep,
                 fault2 := f1 + 2 * s.majorFault })
    else
      some (s.nextCoord,
        { s with nextCoord := s.nextCoord + s.majorStep, fault2 := f1 })

/-- Collect the iterator's yields (with fuel; `lineList` supplies enough
fuel for the whole segment). -/
def lineGo : Nat → LineIter → List Coord
  | 0, _ => []
  | fuel + 1, s =>
    match lineNext s with
    | some (c, s2) => c :: lineGo fuel s2
    | none => []

/-- `Line::new(p, q).iter()` collected: the full Bresenham segment. -/
def lineList (p q : Coord) : List Coord :=
  lineGo ((max |(q - p).x| |(q - p).y|).toNat + 1) (lineInit p q)

example : lineList (Coord.new 0 0) (Coord.new 0 0) = [Coord.new 0 0] := by
  decide

example : lineList (Coord.new 0 0) (Coord.new 3 0) =
    [Coord.new 0 0, Coord.new 1 0, Coord.new 2 0, Coord.new 3 0] := by decide

example : lineList (Coord.new 0 0) (Coord.new 3 2) =
    [Coord.new 0 0, Coord.new 1 1, Coord.new 2 1, Coord.new 3 2] := by decide

theorem getLast?_cons_ne_nil {α : Type} (a : α) {l : List α} (h : l ≠ []) :
    (a :: l).getLast? = l.getLast? := by
  cases l with
  | nil => exact absurd rfl h
  | cons b t => exact List.getLast?_cons_cons

theorem lineGo_run (q maj mino : Coord) (M m : Int)
    (Hm0 : 0 ≤ m) (HmM : m ≤ M)
    (Haxis : (maj.y = 0 ∧ (maj.x = 1 ∨ maj.x = -1) ∧ mino.x = 0) ∨
             (maj.x = 0 ∧ (maj.y = 1 ∨ maj.y = -1) ∧ mino.y = 0)) :
    ∀ (j : Nat) (pos : Coord) (t f : Int),
      q.x = pos.x + (j : Int) * maj.x + t * mino.x →
      q.y = pos.y + (j : Int) * maj.y + t * mino.y →
      f = M + 2 * (j : Int) * m - 2 * t * M →
      0 ≤ f → f < 2 * M →
      lineGo (j + 1) ⟨q, pos, maj, mino, f, M, m, false⟩ ≠ [] ∧
      (lineGo (j + 1) ⟨q, pos, maj, mino, f, M, m, false⟩).head? = some pos ∧
      (lineGo (j + 1) ⟨q, pos, maj, mino, f, M, m, false⟩).getLast? =
        some q := by
  intro j
  induction j with
  | zero =>
    intro pos t f hqx hqy hf hf0 hf2
    have hM : 0 < M := by omega
    have ht : t = 0 := by
      have hfM : f = M * (1 - 2 * t) := by rw [hf]; ring
      have h1 : 0 ≤ 1 - 2 * t := by
        by_contra hneg
        have : M * (1 - 2 * t) < 0 := by
          apply mul_neg_of_pos_of_neg hM
          omega
        omega
      have h2 : 1 - 2 * t < 2 := by
        by_contra hge
        have : M * 2 ≤ M * (1 - 2 * t) := by
          apply mul_le_mul_of_nonneg_left (by omega) (le_of_lt hM)
        omega
      omega
    subst ht
    have hpq : pos = q := by
      cases pos
      cases q
      simp only [Coord.mk.injEq]
      simp only [] at hqx hqy
      constructor <;> omega
    subst hpq
    simp [lineGo, lineNext]
  | succ j ih =>
    intro pos t f hqx hqy hf hf0 hf2
    have hM : 0 < M := by omega
    have hne : pos ≠ q := by
      intro h
      subst h
      rcases Haxis with ⟨hy, hx1, hminx⟩ | ⟨hx, hy1, hminy⟩
      · rcases hx1 with h1 | h1 <;> rw [h1, hminx] at hqx <;>
          simp at hqx <;> omega
      · rcases hy1 with h1 | h1 <;> rw [h1, hminy] at hqy <;>
          simp at hqy <;> omega
    rw [show j + 1 + 1 = (j + 1) + 1 from rfl, lineGo]
    rw [lineNext]
    simp only [if_neg (Bool.false_ne_true), if_neg hne]
    by_cases hbr : f - 2 * m < 0
    · rw [if_pos hbr]
      simp only []
      have hrec := ih (pos + maj + mino) (t - 1) (f - 2 * m + 2 * M)
        (by simp only [Coord.add_def]; push_cast at hqx ⊢; linarith [hqx])
        (by simp only [Coord.add_def]; push_cast at hqy ⊢; linarith [hqy])
        (by rw [hf]; push_cast; ring) (by omega) (by omega)
      refine ⟨by simp, by simp, ?_⟩
      rw [getLast?_cons_ne_nil _ hrec.1]
      exact hrec.2.2
    · rw [if_neg hbr]
      simp only []
      have hrec := ih (pos + maj) t (f - 2 * m)
        (by simp only [Coord.add_def]; push_cast at hqx ⊢; linarith [hqx])
        (by simp only [Coord.add_def]; push_cast at hqy ⊢; linarith [hqy])
        (by rw [hf]; push_cast; ring) (by omega) (by omega)
      refine ⟨by simp, by simp, ?_⟩
      rw [getLast?_cons_ne_nil _ hrec.1]
      exact hrec.2.2

theorem sign_cases_of_pos_abs {a : Int} (h : 0 < |a|) :
    Int.sign a = 1 ∨ Int.sign a = -1 := by
  rcases lt_trichotomy a 0 with h1 | h1 | h1
  · right; simpa [Int.sign_eq_neg_one_iff_neg] using h1
  · subst h1; simp at h
  · left; simpa [Int.sign_eq_one_iff_pos] using h1

theorem abs_mul_sign_self (a : Int) : |a| * Int.sign a = a := by
  rw [mul_comm]
  exact Int.sign_mul_abs a

/-- C5.  `line(from, to)` always yields a finite sequence that starts at
`from` and ends at `to`; in particular the degenerate segment yields exactly
the one coordinate and `line((0,0),(3,0))` yields the four collinear
coordinates in order. -/
theorem line_endpoints (p q : Coord) :
    (lineList p q).head? = some p ∧ (lineList p q).getLast? = some q ∧
    lineList (Coord.new 0 0) (Coord.new 0 0) = [Coord.new 0 0] ∧
    lineList (Coord.new 0 0) (Coord.new 3 0) =
      [Coord.new 0 0, Coord.new 1 0, Coord.new 2 0, Coord.new 3 0] := by
  have hmain : (lineList p q).head? = some p ∧
      (lineList p q).getLast? = some q := by
    rw [lineList, lineInit]
    by_cases hmaj : |(q - p).x| > |(q - p).y|
    · rw [if_pos hmaj]
      have habs : 0 < |(q - p).x| := lt_of_le_of_lt (abs_nonneg _) hmaj
      have hmax : max |(q - p).x| |(q - p).y| = |(q - p).x| :=
        max_eq_left (le_of_lt hmaj)
      rw [hmax]
      have hcast : ((|(q - p).x|.toNat : Nat) : Int) = |(q - p).x| :=
        Int.toNat_of_nonneg (abs_nonneg _)
      have hrun := lineGo_run q ⟨Int.sign (q - p).x, 0⟩ ⟨0, Int.sign (q - p).y⟩
        |(q - p).x| |(q - p).y| (abs_nonneg _) (le_of_lt hmaj)
        (Or.inl ⟨rfl, sign_cases_of_pos_abs habs, rfl⟩)
        |(q - p).x|.toNat p |(q - p).y| |(q - p).x|
        (by simp only [hcast]
            rw [abs_mul_sign_self]
            simp [Coord.sub_def])
        (by simp only [hcast]
            rw [mul_zero, abs_mul_sign_self]
            simp [Coord.sub_def])
        (by rw [hcast]; ring) (abs_nonneg _) (by omega)
      exact ⟨hrun.2.1, hrun.2.2⟩
    · rw [if_neg hmaj]
      push_neg at hmaj
      by_cases hzero : |(q - p).y| = 0
      · have hx : (q - p).x = 0 := by
          have h0 : |(q - p).x| = 0 := le_antisymm (by omega) (abs_nonneg _)
          exact abs_eq_zero.1 h0
        have hy : (q - p).y = 0 := abs_eq_zero.1 hzero
        have hpq : q = p := by
          cases p; cases q
          simp [Coord.sub_def] at hx hy
          simp [Coord.mk.injEq]
          omega
        subst hpq
        simp [lineGo, lineNext, Coord.sub_def]
      · have hpos : 0 < |(q - p).y| := by
          have := abs_nonneg (q - p).y
          omega
        have hmax : max |(q - p).x| |(q - p).y| = |(q - p).y| :=
          max_eq_right hmaj
        rw [hmax]
        have hcast : ((|(q - p).y|.toNat : Nat) : Int) = |(q - p).y| :=
          Int.toNat_of_nonneg (abs_nonneg _)
        have hrun := lineGo_run q ⟨0, Int.sign (q - p).y⟩ ⟨Int.sign (q - p).x, 0⟩
          |(q - p).y| |(q - p).x| (abs_nonneg _) hmaj
          (Or.inr ⟨rfl, sign_cases_of_pos_abs hpos, rfl⟩)
          |(q - p).y|.toNat p |(q - p).x| |(q - p).y|
          (by simp only [hcast]
              rw [mul_zero, abs_mul_sign_self]
              simp [Coord.sub_def])
          (by simp only [hcast]
              rw [abs_mul_sign_self]
              simp [Coord.sub_def])
          (by rw [hcast]; ring) (abs_nonneg _) (by omega)
        exact ⟨hrun.2.1, hrun.2.2⟩
  exact ⟨hmain.1, hmain.2, by decide, by decide⟩

-- Bresenham circle (for C4) ----------------------------------------------------

/-- `Circle::mirror_quadrants` from `src/patterns/circle.rs`. -/
def mirrorQuadrants (center coord : Coord) : List Coord :=
  [center + coord,
   center + coord.flip,
   center + coord.negateY,
   center + coord.flip.negate]

/-- `Circle::mirror_octants`. -/
def mirrorOctants (center coord : Coord) : List Coord :=
  [center + coord,
   center + coord.flip,
   center + coord.flip.negateX,
   center + coord.negateX,
   center + coord.negate,
   center + coord.flip.negate,
   center + coord.flip.negateY,
   center + coord.negateY]

/-- `HashSet::insert` on an insertion-ordered duplicate-free list. -/
def insertIfNew (s : List Coord) (c : Coord) : List Coord :=
  if c ∈ s then s else s ++ [c]

/-- `CircleIter` from `src/patterns/circle.rs`. -/
structure CircleIter where
  center : Coord
  radius : Int
  cursor : Coord
  d : Int
  queue : List Coord
  seen : List Coord
deriving Repr

/-- `Circle::iter`: the initial iterator state.  Note the initial loop
pushes all four quadrant mirrors of `(0, radius)` onto the queue
*unconditionally* (only `seen_coords`, being a set, deduplicates them). -/
def circleInit (center : Coord) (radius : Int) : CircleIter :=
  let starting : Coord := ⟨0, radius⟩
  { center := center, radius := radius, cursor := starting,
    d := 3 - 2 * radius,
    queue := mirrorQuadrants center starting,
    seen := (mirrorQuadrants center starting).foldl insertIfNew [] }

/-- The queue-refill step inside `CircleIter::next` (taken when the queue is
empty and `cursor.y > cursor.x`): advance the cursor along the octant,
update `d`, then push every not-yet-seen octant mirror of the new cursor. -/
def circleStep (s : CircleIter) : CircleIter :=
  let cx := s.cursor.x + 1
  let s2 :=
    if s.d < 0 then
      { s with cursor := ⟨cx, s.cursor.y⟩, d := s.d + 4 * cx + 6 }
    else
      { s with cursor := ⟨cx, s.cursor.y - 1⟩,
               d := 4 * (cx - s.cursor.y) + 10 }
  let fill := (mirrorOctants s2.center s2.cursor).foldl
    (fun (qs : List Coord × List Coord) c =>
      if c ∈ qs.2 then qs else (qs.1 ++ [c], qs.2 ++ [c]))
    (s2.queue, s2.seen)
  { s2 with queue := fill.1, seen := fill.2 }

/-- `CircleIter::next`. -/
def circleNext (s : CircleIter) : Option (Coord × CircleIter) :=
  let s := if s.queue = [] ∧ s.cursor.y > s.cursor.x then circleStep s else s
  match s.queue with
  | [] => none
  | c :: rest => some (c, { s with queue := rest })

/-- Collect the iterator's yields with fuel. -/
def circleGo : Nat → CircleIter → List Coord
  | 0, _ => []
  | fuel + 1, s =>
    match circleNext s with
    | some (c, s2) => c :: circleGo fuel s2
    | none => []

/-- `Circle::new(center, radius).iter()` collected.  The cursor advances at
most `radius + 1` times and each advance enqueues at most 8 coordinates on
top of the 4 initial ones, so this fuel always exhausts the iterator. -/
def circleList (center : Coord) (radius : Int) : List Coord :=
  circleGo (8 * (radius.toNat + 2)) (circleInit center radius)

/-- C4 (failing input).  `circle((0,0), 0)` yields the center FOUR times,
not once: `Circle::iter` pushes the four coincident quadrant mirrors of
`(0, radius)` onto the queue without consulting the seen-set, so for
`radius = 0` the four copies of the center are all yielded.  This
contradicts the source's own documentation of `seen_coords` ("Used to
prevent duplicate Coords from being returned"). -/
theorem circle_radius_zero_yields_center_four_times :
    circleList (Coord.new 0 0) 0 =
      [Coord.new 0 0, Coord.new 0 0, Coord.new 0 0, Coord.new 0 0] := by
  decide

example : circleList (Coord.new 0 0) 1 =
    [Coord.new 0 1, Coord.new 1 0, Coord.new 0 (-1), Coord.new (-1) 0] := by
  decide

-- Flood fill (for C3 and C10) --------------------------------------------------

/-- The gate `FloodIter::next` applies to a popped coordinate:
`grid.get(coord).and_then(|cell| Some(predicate(cell))).unwrap_or(false)` —
true exactly when the coordinate has a backing cell whose value satisfies
the predicate. -/
def cellOk {α : Type} (g : VecGrid α) (p : α → Bool) (c : Coord) : Bool :=
  ((g.get c).map p).getD false

/-- The neighbor batch `FloodIter::next` enqueues after popping `c`: the
orthogonal neighbors not already searched (`searched2` — the searched list
*after* pushing `c`) nor already queued (`rest` — the queue *after* popping
`c`) that are in bounds. -/
def floodNs {α : Type} (g : VecGrid α) (searched2 rest : List Coord)
    (c : Coord) : List Coord :=
  (orthoNeighborhood c).filter
    (fun n => !(searched2.contains n || rest.contains n) &&
      g.bounds.containsCoord n)

/-- `FloodIter::next`, iterated to exhaustion, with fuel.  Each call pops
the front of `coords_to_search`; the popped coordinate is appended to
`searched_coords` unconditionally; if its cell passes the predicate the
in-bounds orthogonal neighbors not already searched or queued are appended
to the queue and the coordinate is yielded. -/
def floodGo {α : Type} (g : VecGrid α) (p : α → Bool) :
    Nat → List Coord → List Coord → List Coord
  | 0, _, _ => []
  | _ + 1, _, [] => []
  | fuel + 1, searched, c :: rest =>
    if cellOk g p c then
      c :: floodGo g p fuel (searched ++ [c])
        (rest ++ floodNs g (searched ++ [c]) rest c)
    else
      floodGo g p fuel (searched ++ [c]) rest

/-- Enough fuel to exhaust the traversal: every coordinate that ever enters
the queue is either the start or in bounds, and enters at most once. -/
def floodFuel {α : Type} (g : VecGrid α) : Nat :=
  g.bounds.rowMajorCoords.length + 2

/-- `Grid::flood_iter(start, predicate)` collected: the queue starts as
`[start]` and nothing is searched yet. -/
def floodList {α : Type} (g : VecGrid α) (p : α → Bool) (start : Coord) :
    List Coord :=
  floodGo g p (floodFuel g) [] [start]

/-- The 4-connected region the spec describes: `start` itself when its cell
passes the predicate, closed under passing orthogonal neighbors.  (Every
member's cell passes the predicate, which in particular puts it in
bounds.) -/
inductive FloodReach {α : Type} (g : VecGrid α) (p : α → Bool)
    (start : Coord) : Coord → Prop where
  | start (h : cellOk g p start = true) : FloodReach g p start start
  | step {c n : Coord} (hc : FloodReach g p start c)
      (hn : n ∈ orthoNeighborhood c) (hok : cellOk g p n = true) :
      FloodReach g p start n

theorem cellOk_contains {α : Type} {g : VecGrid α} {p : α → Bool} {c : Coord}
    (h : cellOk g p c = true) : g.bounds.containsCoord c = true := by
  unfold cellOk VecGrid.get at h
  cases hc : g.coordToIndex c with
  | none => rw [hc] at h; cases h
  | some i => exact coordToIndex_some_contains hc

theorem cellOk_get_isSome {α : Type} {g : VecGrid α} {p : α → Bool} {c : Coord}
    (h : cellOk g p c = true) : ∃ v, g.get c = some v ∧ p v = true := by
  unfold cellOk at h
  cases hg : g.get c with
  | none => rw [hg] at h; cases h
  | some v =>
    rw [hg] at h
    exact ⟨v, rfl, h⟩

theorem floodReach_cellOk {α : Type} {g : VecGrid α} {p : α → Bool}
    {start c : Coord} (h : FloodReach g p start c) : cellOk g p c = true := by
  cases h with
  | start h => exact h
  | step _ _ hok => exact hok

theorem floodNs_mem {α : Type} (g : VecGrid α) (searched2 rest : List Coord)
    (c n : Coord) :
    n ∈ floodNs g searched2 rest c ↔
      n ∈ orthoNeighborhood c ∧ n ∉ searched2 ∧ n ∉ rest ∧
        g.bounds.containsCoord n = true := by
  simp [floodNs, List.mem_filter, and_assoc, not_or]

theorem orthoNeighborhood_nodup (c : Coord) :
    (orthoNeighborhood c).Nodup := by
  apply List.Nodup.map
  · intro a b hab
    cases a; cases b; cases c
    simp only [Coord.add_def, Coord.mk.injEq] at hab ⊢
    omega
  · decide

theorem floodNs_nodup {α : Type} (g : VecGrid α) (searched2 rest : List Coord)
    (c : Coord) : (floodNs g searched2 rest c).Nodup :=
  (orthoNeighborhood_nodup c).filter _

theorem floodGo_zero {α : Type} (g : VecGrid α) (p : α → Bool)
    (searched queue : List Coord) : floodGo g p 0 searched queue = [] := rfl

theorem floodGo_nil {α : Type} (g : VecGrid α) (p : α → Bool) (fuel : Nat)
    (searched : List Coord) : floodGo g p fuel searched [] = [] := by
  cases fuel <;> rfl

theorem floodGo_cons_ok {α : Type} (g : VecGrid α) (p : α → Bool) (fuel : Nat)
    (searched rest : List Coord) (c : Coord) (h : cellOk g p c = true) :
    floodGo g p (fuel + 1) searched (c :: rest) =
      c :: floodGo g p fuel (searched ++ [c])
        (rest ++ floodNs g (searched ++ [c]) rest c) := by
  rw [floodGo, if_pos h]

theorem floodGo_cons_notOk {α : Type} (g : VecGrid α) (p : α → Bool)
    (fuel : Nat) (searched rest : List Coord) (c : Coord)
    (h : cellOk g p c = false) :
    floodGo g p (fuel + 1) searched (c :: rest) =
      floodGo g p fuel (searched ++ [c]) rest := by
  rw [floodGo, if_neg (by rw [h]; exact Bool.false_ne_true)]

theorem floodReach_base_cellOk {α : Type} {g : VecGrid α} {p : α → Bool}
    {a z : Coord} (h : FloodReach g p a z) : cellOk g p a = true := by
  induction h with
  | start h => exact h
  | step _ _ _ ih => exact ih

theorem floodGo_sound {α : Type} (g : VecGrid α) (p : α → Bool)
    (start : Coord) : ∀ (fuel : Nat) (searched queue : List Coord),
    (∀ q ∈ queue, cellOk g p q = true → FloodReach g p start q) →
    ∀ c ∈ floodGo g p fuel searched queue, FloodReach g p start c := by
  intro fuel
  induction fuel with
  | zero =>
    intro searched queue hq c hc
    cases hc
  | succ fuel ih =>
    intro searched queue hq c hc
    cases queue with
    | nil => rw [floodGo_nil] at hc; cases hc
    | cons q rest =>
      by_cases hok : cellOk g p q = true
      · rw [floodGo_cons_ok g p fuel searched rest q hok] at hc
        have hreachq : FloodReach g p start q :=
          hq q (List.mem_cons_self q rest) hok
        rcases List.mem_cons.1 hc with rfl | hc2
        · exact hreachq
        · refine ih (searched ++ [q]) _ ?_ c hc2
          intro n hn hnok
          rcases List.mem_append.1 hn with hn | hn
          · exact hq n (List.mem_cons_of_mem _ hn) hnok
          · have := (floodNs_mem g _ rest q n).1 hn
            exact FloodReach.step hreachq this.1 hnok
      · rw [floodGo_cons_notOk g p fuel searched rest q
          (Bool.not_eq_true _ ▸ hok)] at hc
        refine ih (searched ++ [q]) rest ?_ c hc
        intro n hn hnok
        exact hq n (List.mem_cons_of_mem _ hn) hnok

theorem floodGo_nodup {α : Type} (g : VecGrid α) (p : α → Bool) :
    ∀ (fuel : Nat) (searched queue : List Coord),
    (∀ q ∈ queue, q ∉ searched) → queue.Nodup →
    (floodGo g p fuel searched queue).Nodup ∧
      ∀ c ∈ floodGo g p fuel searched queue, c ∉ searched := by
  intro fuel
  induction fuel with
  | zero =>
    intro searched queue hdisj hnd
    exact ⟨List.nodup_nil, fun c hc => absurd hc (List.not_mem_nil c)⟩
  | succ fuel ih =>
    intro searched queue hdisj hnd
    cases queue with
    | nil =>
      rw [floodGo_nil]
      exact ⟨List.nodup_nil, fun c hc => absurd hc (List.not_mem_nil c)⟩
    | cons q rest =>
      have hqs : q ∉ searched := hdisj q (List.mem_cons_self q rest)
      have hndrest : rest.Nodup := (List.nodup_cons.1 hnd).2
      have hqrest : q ∉ rest := (List.nodup_cons.1 hnd).1
      by_cases hok : cellOk g p q = true
      · rw [floodGo_cons_ok g p fuel searched rest q hok]
        have hdisj2 : ∀ n ∈ rest ++ floodNs g (searched ++ [q]) rest q,
            n ∉ searched ++ [q] := by
          intro n hn
          rcases List.mem_append.1 hn with hn | hn
          · intro hmem
            rcases List.mem_append.1 hmem with hmem | hmem
            · exact hdisj n (List.mem_cons_of_mem _ hn) hmem
            · rw [List.mem_singleton] at hmem
              exact hqrest (hmem ▸ hn)
          · exact ((floodNs_mem g _ rest q n).1 hn).2.1
        have hnd2 : (rest ++ floodNs g (searched ++ [q]) rest q).Nodup := by
          rw [List.nodup_append]
          refine ⟨hndrest, floodNs_nodup g _ rest q, ?_⟩
          intro n hn hn2
          exact ((floodNs_mem g _ rest q n).1 hn2).2.2.1 hn
        obtain ⟨hrecnd, hrecfresh⟩ := ih (searched ++ [q]) _ hdisj2 hnd2
        constructor
        · rw [List.nodup_cons]
          refine ⟨fun hmem => ?_, hrecnd⟩
          exact hrecfresh q hmem (by simp)
        · intro c hc
          rcases List.mem_cons.1 hc with rfl | hc2
          · exact hqs
          · intro hmem
            exact hrecfresh c hc2 (List.mem_append_left _ hmem)
      · rw [floodGo_cons_notOk g p fuel searched rest q
          (Bool.not_eq_true _ ▸ hok)]
        have hdisj2 : ∀ n ∈ rest, n ∉ searched ++ [q] := by
          intro n hn hmem
          rcases List.mem_append.1 hmem with hmem | hmem
          · exact hdisj n (List.mem_cons_of_mem _ hn) hmem
          · rw [List.mem_singleton] at hmem
            exact hqrest (hmem ▸ hn)
        obtain ⟨hrecnd, hrecfresh⟩ := ih (searched ++ [q]) rest hdisj2 hndrest
        refine ⟨hrecnd, fun c hc hmem => ?_⟩
        exact hrecfresh c hc (List.mem_append_left _ hmem)

/-- Termination measure for the traversal: queue length plus the number of
in-bounds coordinates not yet seen by the traversal. -/
def floodMeasure {α : Type} (g : VecGrid α) (searched queue : List Coord) :
    Nat :=
  queue.length +
    (g.bounds.rowMajorCoords.toFinset \
      (searched.toFinset ∪ queue.toFinset)).card

theorem flood_union_shift (searched rest : List Coord) (c : Coord) :
    (searched ++ [c]).toFinset ∪ rest.toFinset =
      searched.toFinset ∪ (c :: rest).toFinset := by
  ext x
  simp only [List.toFinset_append, List.toFinset_cons, Finset.mem_union,
    Finset.mem_insert, List.mem_toFinset, List.toFinset_nil,
    Finset.mem_singleton]
  tauto

theorem floodMeasure_notOk {α : Type} (g : VecGrid α)
    (searched rest : List Coord) (c : Coord) :
    floodMeasure g (searched ++ [c]) rest + 1 =
      floodMeasure g searched (c :: rest) := by
  unfold floodMeasure
  rw [flood_union_shift searched rest c]
  simp only [List.length_cons]
  omega

theorem floodMeasure_ok {α : Type} (g : VecGrid α)
    (searched rest : List Coord) (c : Coord) :
    floodMeasure g (searched ++ [c])
        (rest ++ floodNs g (searched ++ [c]) rest c) + 1 =
      floodMeasure g searched (c :: rest) := by
  unfold floodMeasure
  set U := g.bounds.rowMajorCoords.toFinset with hU
  set ns := floodNs g (searched ++ [c]) rest c with hns
  have htf : (rest ++ ns).toFinset = rest.toFinset ∪ ns.toFinset := by
    simp [List.toFinset_append]
  have hsub : ns.toFinset ⊆
      U \ ((searched ++ [c]).toFinset ∪ rest.toFinset) := by
    intro n hn
    rw [List.mem_toFinset, hns] at hn
    obtain ⟨ho, hs2, hr, hcont⟩ := (floodNs_mem g _ rest c n).1 hn
    rw [Finset.mem_sdiff]
    constructor
    · rw [hU, List.mem_toFinset]
      exact (rowMajorCoords_mem g.bounds n).2 hcont
    · rw [Finset.mem_union, List.mem_toFinset, List.mem_toFinset]
      rintro (h | h)
      · exact hs2 h
      · exact hr h
  have hcard : (U \ ((searched ++ [c]).toFinset ∪ (rest ++ ns).toFinset)).card
      = (U \ ((searched ++ [c]).toFinset ∪ rest.toFinset)).card
        - ns.toFinset.card := by
    have hdec : U \ ((searched ++ [c]).toFinset ∪ rest.toFinset ∪
        ns.toFinset) =
        (U \ ((searched ++ [c]).toFinset ∪ rest.toFinset)) \ ns.toFinset :=
      sdiff_sdiff_left.symm
    rw [htf, ← Finset.union_assoc, hdec]
    exact Finset.card_sdiff hsub
  have hle : ns.toFinset.card ≤
      (U \ ((searched ++ [c]).toFinset ∪ rest.toFinset)).card :=
    Finset.card_le_card hsub
  have hnscard : ns.toFinset.card = ns.length :=
    List.toFinset_card_of_nodup (floodNs_nodup g _ rest c)
  rw [← flood_union_shift searched rest c, hcard]
  simp only [List.length_append, List.length_cons]
  omega

theorem floodGo_complete {α : Type} (g : VecGrid α) (p : α → Bool) :
    ∀ (fuel : Nat) (searched queue : List Coord),
    floodMeasure g searched queue ≤ fuel →
    (∀ q ∈ queue, q ∉ searched) →
    queue.Nodup →
    (∀ s ∈ searched, cellOk g p s = true → ∀ n ∈ orthoNeighborhood s,
      g.bounds.containsCoord n = true → n ∈ searched ∨ n ∈ queue) →
    ∀ z q, q ∈ queue → FloodReach g p q z →
      z ∈ searched ∨ z ∈ floodGo g p fuel searched queue := by
  intro fuel
  induction fuel with
  | zero =>
    intro searched queue hfuel hdisj hnd hclosed z q hq hz
    have : queue = [] := by
      unfold floodMeasure at hfuel
      exact List.eq_nil_of_length_eq_zero (by omega)
    subst this
    cases hq
  | succ fuel ih =>
    intro searched queue hfuel hdisj hnd hclosed z q hq hz
    cases queue with
    | nil => cases hq
    | cons c rest =>
      have hcs : c ∉ searched := hdisj c (List.mem_cons_self c rest)
      have hndrest : rest.Nodup := (List.nodup_cons.1 hnd).2
      have hcrest : c ∉ rest := (List.nodup_cons.1 hnd).1
      by_cases hok : cellOk g p c = true
      · -- included: c is yielded and its fresh neighbors are enqueued
        rw [floodGo_cons_ok g p fuel searched rest c hok]
        have hfuel2 : floodMeasure g (searched ++ [c])
            (rest ++ floodNs g (searched ++ [c]) rest c) ≤ fuel := by
          have := floodMeasure_ok g searched rest c
          omega
        have hdisj2 : ∀ n ∈ rest ++ floodNs g (searched ++ [c]) rest c,
            n ∉ searched ++ [c] := by
          intro n hn
          rcases List.mem_append.1 hn with hn | hn
          · intro hmem
            rcases List.mem_append.1 hmem with hmem | hmem
            · exact hdisj n (List.mem_cons_of_mem _ hn) hmem
            · rw [List.mem_singleton] at hmem
              exact hcrest (hmem ▸ hn)
          · exact ((floodNs_mem g _ rest c n).1 hn).2.1
        have hnd2 : (rest ++ floodNs g (searched ++ [c]) rest c).Nodup := by
          rw [List.nodup_append]
          refine ⟨hndrest, floodNs_nodup g _ rest c, ?_⟩
          intro n hn hn2
          exact ((floodNs_mem g _ rest c n).1 hn2).2.2.1 hn
        have hclosed2 : ∀ s ∈ searched ++ [c], cellOk g p s = true →
            ∀ n ∈ orthoNeighborhood s, g.bounds.containsCoord n = true →
            n ∈ searched ++ [c] ∨
              n ∈ rest ++ floodNs g (searched ++ [c]) rest c := by
          intro s hs hsok n hn hncont
          rcases List.mem_append.1 hs with hs | hs
          · rcases hclosed s hs hsok n hn hncont with h | h
            · exact Or.inl (List.mem_append_left _ h)
            · rcases List.mem_cons.1 h with rfl | h
              · exact Or.inl (List.mem_append_right _ (by simp))
              · exact Or.inr (List.mem_append_left _ h)
          · rw [List.mem_singleton] at hs
            subst hs
            by_cases hin : n ∈ searched ++ [s]
            · exact Or.inl hin
            · by_cases hinr : n ∈ rest
              · exact Or.inr (List.mem_append_left _ hinr)
              · refine Or.inr (List.mem_append_right _ ?_)
                exact (floodNs_mem g _ rest s n).2 ⟨hn, hin, hinr, hncont⟩
        have hsub : ∀ y, FloodReach g p c y →
            y ∈ searched ++ [c] ∨
              ∃ q2 ∈ rest ++ floodNs g (searched ++ [c]) rest c,
                FloodReach g p q2 y := by
          intro y hy
          induction hy with
          | start _ => exact Or.inl (List.mem_append_right _ (by simp))
          | step hc2 hn2 hok2 ih2 =>
            rcases ih2 with hyS | ⟨q2, hq2, hreach2⟩
            · rcases hclosed2 _ hyS (floodReach_cellOk hc2) _ hn2
                (cellOk_contains hok2) with h | h
              · exact Or.inl h
              · exact Or.inr ⟨_, h, FloodReach.start hok2⟩
            · exact Or.inr ⟨q2, hq2, FloodReach.step hreach2 hn2 hok2⟩
        have hfinish : z ∈ searched ++ [c] ∨
            z ∈ floodGo g p fuel (searched ++ [c])
              (rest ++ floodNs g (searched ++ [c]) rest c) →
            z ∈ searched ∨ z = c ∨
              z ∈ floodGo g p fuel (searched ++ [c])
                (rest ++ floodNs g (searched ++ [c]) rest c) := by
          rintro (h | h)
          · rcases List.mem_append.1 h with h | h
            · exact Or.inl h
            · rw [List.mem_singleton] at h
              exact Or.inr (Or.inl h)
          · exact Or.inr (Or.inr h)
        rcases List.mem_cons.1 hq with rfl | hqrest
        · rcases hsub z hz with hzS | ⟨q2, hq2, hreach2⟩
          · rcases List.mem_append.1 hzS with h | h
            · exact Or.inl h
            · rw [List.mem_singleton] at h
              exact Or.inr (by rw [h]; exact List.mem_cons_self _ _)
          · rcases hfinish (ih _ _ hfuel2 hdisj2 hnd2 hclosed2 z q2 hq2
                hreach2) with h | h | h
            · exact Or.inl h
            · exact Or.inr (by rw [h]; exact List.mem_cons_self _ _)
            · exact Or.inr (List.mem_cons_of_mem _ h)
        · rcases hfinish (ih _ _ hfuel2 hdisj2 hnd2 hclosed2 z q
              (List.mem_append_left _ hqrest) hz) with h | h | h
          · exact Or.inl h
          · exact Or.inr (by rw [h]; exact List.mem_cons_self _ _)
          · exact Or.inr (List.mem_cons_of_mem _ h)
      · -- not included: c is marked searched and contributes nothing
        have hokf : cellOk g p c = false := Bool.not_eq_true _ ▸ hok
        rw [floodGo_cons_notOk g p fuel searched rest c hokf]
        have hfuel2 : floodMeasure g (searched ++ [c]) rest ≤ fuel := by
          have := floodMeasure_notOk g searched rest c
          omega
        have hdisj2 : ∀ n ∈ rest, n ∉ searched ++ [c] := by
          intro n hn hmem
          rcases List.mem_append.1 hmem with hmem | hmem
          · exact hdisj n (List.mem_cons_of_mem _ hn) hmem
          · rw [List.mem_singleton] at hmem
            exact hcrest (hmem ▸ hn)
        have hclosed2 : ∀ s ∈ searched ++ [c], cellOk g p s = true →
            ∀ n ∈ orthoNeighborhood s, g.bounds.containsCoord n = true →
            n ∈ searched ++ [c] ∨ n ∈ rest := by
          intro s hs hsok n hn hncont
          rcases List.mem_append.1 hs with hs | hs
          · rcases hclosed s hs hsok n hn hncont with h | h
            · exact Or.inl (List.mem_append_left _ h)
            · rcases List.mem_cons.1 h with rfl | h
              · exact Or.inl (List.mem_append_right _ (by simp))
              · exact Or.inr h
          · rw [List.mem_singleton] at hs
            subst hs
            rw [hsok] at hokf
            cases hokf
        rcases List.mem_cons.1 hq with rfl | hqrest
        · rw [floodReach_base_cellOk hz] at hokf
          cases hokf
        · rcases ih _ _ hfuel2 hdisj2 hndrest hclosed2 z q hqrest hz
              with h | h
          · rcases List.mem_append.1 h with h | h
            · exact Or.inl h
            · rw [List.mem_singleton] at h
              subst h
              rw [floodReach_cellOk hz] at hokf
              cases hokf
          · exact Or.inr h

theorem floodMeasure_init {α : Type} (g : VecGrid α) (start : Coord) :
    floodMeasure g [] [start] ≤ floodFuel g := by
  unfold floodMeasure floodFuel
  have h1 : (g.bounds.rowMajorCoords.toFinset \
      (([] : List Coord).toFinset ∪ [start].toFinset)).card ≤
      g.bounds.rowMajorCoords.toFinset.card :=
    Finset.card_le_card (Finset.sdiff_subset)
  have h2 : g.bounds.rowMajorCoords.toFinset.card ≤
      g.bounds.rowMajorCoords.length := List.toFinset_card_le _
  simp only [List.length_cons, List.length_nil]
  omega

/-- C3.  The coordinates yielded by `flood_iter(start, predicate)` are
exactly the `FloodReach` region — the maximal 4-connected set of
predicate-satisfying in-bounds coordinates containing `start` (empty when
`start`'s own cell does not pass) — and each coordinate is yielded exactly
once (no duplicates); when the predicate rejects the start (or it has no
cell), nothing is yielded. -/
theorem floodIter_region {α : Type} (g : VecGrid α) (p : α → Bool)
    (start : Coord) :
    (∀ c : Coord, c ∈ floodList g p start ↔ FloodReach g p start c) ∧
    (floodList g p start).Nodup ∧
    (cellOk g p start = false → floodList g p start = []) := by
  refine ⟨fun c => ⟨?_, ?_⟩, ?_, ?_⟩
  · intro hc
    refine floodGo_sound g p start _ [] [start] ?_ c hc
    intro q hq hok
    rw [List.mem_singleton] at hq
    subst hq
    exact FloodReach.start hok
  · intro hreach
    rcases floodGo_complete g p (floodFuel g) [] [start]
        (floodMeasure_init g start) (by simp) (by simp)
        (by intro s hs; cases hs) c start (by simp) hreach with h | h
    · cases h
    · exact h
  · exact (floodGo_nodup g p _ [] [start]
      (fun q _ => List.not_mem_nil q) (by simp)).1
  · intro hfalse
    rw [floodList,
      show floodFuel g = (g.bounds.rowMajorCoords.length + 1) + 1 from rfl,
      floodGo_cons_notOk g p _ [] [] start hfalse, floodGo_nil]

/-- Witness for C3: flooding an all-`false` 4×4 boolean grid with the
identity predicate from `(0,0)` yields nothing (the predicate rejects the
start). -/
theorem floodIter_region_witness :
    floodList (VecGrid.mkDefault Bool (Rect.new ⟨4, 4⟩)) (fun v => v)
      (Coord.new 0 0) = [] :=
  (floodIter_region (VecGrid.mkDefault Bool (Rect.new ⟨4, 4⟩)) (fun v => v)
    (Coord.new 0 0)).2.2 (by decide)

/-- C10.  `flood_iter` is total and panic-free: every yielded coordinate has
a backing cell (`get` is `some` — the internal `unwrap` always succeeds)
whose value satisfies the predicate, and is in bounds; a flood started at an
out-of-bounds coordinate yields the empty sequence. -/
theorem floodIter_safe {α : Type} (g : VecGrid α) (p : α → Bool)
    (start : Coord) :
    (∀ c ∈ floodList g p start, ∃ v, g.get c = some v ∧ p v = true ∧
      g.bounds.containsCoord c = true) ∧
    (g.bounds.containsCoord start = false → floodList g p start = []) := by
  constructor
  · intro c hc
    have hreach : FloodReach g p start c := by
      refine floodGo_sound g p start _ [] [start] ?_ c hc
      intro q hq hok
      rw [List.mem_singleton] at hq
      subst hq
      exact FloodReach.start hok
    have hok := floodReach_cellOk hreach
    obtain ⟨v, hv, hpv⟩ := cellOk_get_isSome hok
    exact ⟨v, hv, hpv, cellOk_contains hok⟩
  · intro hcont
    have hget : g.get start = none := by
      unfold VecGrid.get
      rw [coordToIndex_eq_none g start hcont]
      rfl
    have hfalse : cellOk g p start = false := by
      unfold cellOk
      rw [hget]
      rfl
    rw [floodList,
      show floodFuel g = (g.bounds.rowMajorCoords.length + 1) + 1 from rfl,
      floodGo_cons_notOk g p _ [] [] start hfalse, floodGo_nil]

/-- Witness for C10: flooding from the out-of-bounds coordinate `(9, 9)` of
a 4×4 grid yields nothing. -/
theorem floodIter_safe_witness :
    floodList (VecGrid.mkDefault Bool (Rect.new ⟨4, 4⟩)) (fun v => !v)
      (Coord.new 9 9) = [] :=
  (floodIter_safe (VecGrid.mkDefault Bool (Rect.new ⟨4, 4⟩)) (fun v => !v)
    (Coord.new 9 9)).2 (by decide)

example :
    (floodList (VecGrid.withGenerator (Rect.new ⟨4, 4⟩) (fun _ => true))
      (fun v => v) (Coord.new 0 0)).length = 16 := by decide

example :
    (floodList (VecGrid.withGenerator (Rect.new ⟨4, 4⟩) (fun _ => true))
      (fun v => v) (Coord.new 0 0)).Nodup := by decide
